import Mathlib

/-!
Verification of ebisu-bench (src/ebisu_bench.py): a shallow embedding of the
review-event aggregator (get_review_log), the memory-state emulator
(EbisuCard.emulate), the recall query layer (recall_at / recall_when), the
relative-time formatter (fuzzy_delta) and the summary counting of main.

The ebisu library is an external collaborator: its belief state is opaque to
the program, which only threads it between calls.  We model it as a free term
algebra (Model / EbisuReal), so that every theorem about which engine
operations are invoked, with which arguments, is a theorem about the program
and not about ebisu's numerics.
-/

namespace EbisuBench

/-- Opaque ebisu belief state, modelled freely: the program only ever builds
it with ebisu.defaultModel and ebisu.updateRecall, so a state is exactly the
trace of those calls. -/
inductive Model where
  | defaultModel (halflife : Int)
  | updateRecall (prev : Model) (successes : Nat) (total : Nat) (tnow : Int)
deriving DecidableEq, Repr

/-- The list of update calls recorded in a belief state, oldest first:
(successes, total, elapsed). -/
def Model.calls : Model → List (Nat × Nat × Int)
  | .defaultModel _ => []
  | .updateRecall m s t e => Model.calls m ++ [(s, t, e)]

/-- Opaque ebisu query results (predictRecall / modelToPercentileDecay),
modelled freely. -/
inductive EbisuReal where
  | predictRecall (m : Model) (tnow : Int) (exact : Bool)
  | modelToPercentileDecay (m : Model) (percentile : Rat)
deriving DecidableEq, Repr

/-- `class EbisuCard`: card_id, review_log, model, last_review. -/
structure EbisuCard where
  card_id : Int
  review_log : List (Int × List Bool)
  model : Model
  last_review : Int
deriving DecidableEq, Repr

/-! ## get_review_log -/

/-- `timestamp //= 1000` — Python floor division. -/
def normTs (ts : Int) : Int := Int.fdiv ts 1000

/-- `passed = (button != 1)` — 1 = again, 2 = hard, 3 = good, 4 = easy. -/
def passedOf (button : Int) : Bool := button != 1

/-- `reviews[timestamp].append(passed)` on a `defaultdict(list)` kept as an
insertion-ordered association list, matching Python dict semantics. -/
def addReview (m : List (Int × List Bool)) (ts : Int) (p : Bool) :
    List (Int × List Bool) :=
  match m with
  | [] => [(ts, [p])]
  | (k, v) :: rest =>
    if k = ts then (k, v ++ [p]) :: rest else (k, v) :: addReview rest ts p

/-- The `for timestamp, button in rows` accumulation loop. -/
def buildReviews (rows : List (Int × Int)) : List (Int × List Bool) :=
  rows.foldl (fun m row => addReview m (normTs row.1) (passedOf row.2)) []

/-- Insertion into a key-sorted association list.  Python's sorted() orders
the dict items lexicographically; the keys are pairwise distinct, so ordering
by key alone is extensionally the same. -/
def insertByKey (x : Int × List Bool) : List (Int × List Bool) →
    List (Int × List Bool)
  | [] => [x]
  | y :: ys => if x.1 ≤ y.1 then x :: y :: ys else y :: insertByKey x ys

/-- `sorted(reviews.items())` (insertion sort; keys are distinct so any
comparison sort agrees). -/
def sortByKey : List (Int × List Bool) → List (Int × List Bool)
  | [] => []
  | x :: xs => insertByKey x (sortByKey xs)

/-- `get_review_log`: normalize ms → s, group by normalized timestamp,
return the sessions sorted by timestamp. -/
def get_review_log (rows : List (Int × Int)) : List (Int × List Bool) :=
  sortByKey (buildReviews rows)

/-! ## EbisuCard.emulate -/

/-- The `for timestamp, trials in review_log` fold of EbisuCard.emulate,
returning the final (current, last_review) pair. -/
def emulateLoop (current : Model) (last_review : Option Int) :
    List (Int × List Bool) → Model × Option Int
  | [] => (current, last_review)
  | (timestamp, trials) :: rest =>
    match last_review with
    | none =>
      if trials.any (fun b => b) then emulateLoop current (some timestamp) rest
      else emulateLoop current none rest
    | some lr =>
      emulateLoop
        (Model.updateRecall current (trials.countP (fun b => b))
          trials.length (timestamp - lr))
        (some timestamp) rest

/-- `EbisuCard.emulate(card_id, review_log)`. -/
def emulate (card_id : Int) (review_log : List (Int × List Bool)) :
    Option EbisuCard :=
  let r := emulateLoop (Model.defaultModel (10 * 60)) none review_log
  match r.2 with
  | none => none
  | some lr =>
    some { card_id := card_id, review_log := review_log, model := r.1,
           last_review := lr }

/-- Sessions strictly after the anchor (the first session containing a
passing trial); empty when no session ever passes. -/
def afterAnchor : List (Int × List Bool) → List (Int × List Bool)
  | [] => []
  | (_, trials) :: rest =>
    if trials.any (fun b => b) then rest else afterAnchor rest

/-! ## Recall query layer -/

/-- `EbisuCard.recall_at(self, tnow=None)`.  Wall-clock time is passed in as
`now` (the embedding of int(datetime.datetime.utcnow().timestamp())); the
method body defaults tnow to `now` itself when it is not supplied, then calls
ebisu.predictRecall(self.model, tnow, exact=True).  The second component is
the post-state of self: the body assigns no field, so it is `self`. -/
def recall_at (self : EbisuCard) (now : Int) (tnow : Option Int) :
    EbisuReal × EbisuCard :=
  let t := match tnow with
    | none => now
    | some v => v
  (EbisuReal.predictRecall self.model t true, self)

/-- `EbisuCard.recall_when(self, percentile=0.50)`. -/
def recall_when (self : EbisuCard) (percentile : Rat) :
    EbisuReal × EbisuCard :=
  (EbisuReal.modelToPercentileDecay self.model percentile, self)

/-! ## fuzzy_delta -/

/-- The unit table of fuzzy_delta, largest first. -/
def unitsTable : List (String × Nat) :=
  [("year", 60 * 60 * 24 * 365), ("month", 60 * 60 * 24 * 30),
   ("week", 60 * 60 * 24 * 7), ("day", 60 * 60 * 24), ("hour", 60 * 60),
   ("minute", 60), ("second", 1)]

/-- The unit-selection loop of fuzzy_delta: skip a unit while
`abs(dt) < 2 * interval and interval != 1`, else break with the formatted
string.  The final entry has interval 1, so the Python loop always breaks
and the [] case is unreachable on unitsTable. -/
def pickUnit (dt : Int) : List (String × Nat) → String
  | [] => ""
  | (name, interval) :: rest =>
    if dt.natAbs < 2 * interval ∧ interval ≠ 1 then pickUnit dt rest
    else
      let periods := dt.natAbs / interval
      "about " ++ toString periods ++ " " ++ name ++
        (if periods > 1 then "s" else "")

/-- `fuzzy_delta(dt, raw=False)`. -/
def fuzzy_delta (dt : Int) (raw : Bool) : String :=
  if dt = 0 then "now"
  else
    let fuzzy := pickUnit dt unitsTable
    if raw then fuzzy
    else if dt > 0 then "in " ++ fuzzy
    else fuzzy ++ " ago"

/-! ## main: per-card counting and the summary line -/

/-- The accumulation of total_cards and total_reviews by main's loop over
card_ids: a card whose emulation returns None is skipped, otherwise it adds
1 card and `len(review_log) - 1` reviews.  Each card is given by its id and
its raw (timestamp, button) rows. -/
def tally : List (Int × List (Int × Int)) → Int × Int
  | [] => (0, 0)
  | (cid, rows) :: rest =>
    let rlog := get_review_log rows
    let acc := tally rest
    match emulate cid rlog with
    | none => acc
    | some _ => (acc.1 + 1, acc.2 + ((rlog.length : Int) - 1))

/-- The average printed by the summary line,
`total_reviews / total_cards`: Python true division, which raises
ZeroDivisionError when total_cards = 0 — embedded as none. -/
def summary_avg (total_reviews : Int) (total_cards : Int) : Option Rat :=
  if total_cards = 0 then none
  else some ((total_reviews : Rat) / (total_cards : Rat))

/-! ## Lemmas about the aggregator -/

/-- Unfolding equation for addReview on a cons cell. -/
theorem addReview_cons_eq (k : Int) (v : List Bool)
    (rest : List (Int × List Bool)) (ts : Int) (p : Bool) :
    addReview ((k, v) :: rest) ts p =
      if k = ts then (k, v ++ [p]) :: rest
      else (k, v) :: addReview rest ts p := rfl

/-- Keys of the grouping map after one insertion: the new key is ts, every
other key is untouched. -/
theorem addReview_keys_mem (m : List (Int × List Bool)) (ts : Int) (p : Bool)
    (t : Int) :
    t ∈ (addReview m ts p).map Prod.fst ↔ t ∈ m.map Prod.fst ∨ t = ts := by
  induction m with
  | nil => simp [addReview]
  | cons y rest ih =>
    obtain ⟨k, v⟩ := y
    by_cases hk : k = ts
    · subst hk
      rw [addReview_cons_eq, if_pos rfl]
      simp only [List.map_cons, List.mem_cons]
      tauto
    · rw [addReview_cons_eq, if_neg hk]
      simp only [List.map_cons, List.mem_cons, ih]
      tauto

/-- One insertion keeps the grouping map's keys pairwise distinct. -/
theorem addReview_keys_nodup (m : List (Int × List Bool)) (ts : Int)
    (p : Bool) (h : (m.map Prod.fst).Nodup) :
    ((addReview m ts p).map Prod.fst).Nodup := by
  induction m with
  | nil => simp [addReview]
  | cons y rest ih =>
    obtain ⟨k, v⟩ := y
    simp only [List.map_cons, List.nodup_cons] at h
    by_cases hk : k = ts
    · subst hk
      rw [addReview_cons_eq, if_pos rfl]
      simpa only [List.map_cons, List.nodup_cons] using h
    · rw [addReview_cons_eq, if_neg hk]
      simp only [List.map_cons, List.nodup_cons, addReview_keys_mem]
      exact ⟨fun hor => hor.elim h.1 hk, ih h.2⟩

/-- Keys present after the grouping loop: exactly the starting keys plus the
normalized timestamps of the processed rows. -/
theorem reviewsLoop_keys_mem (rows : List (Int × Int)) :
    ∀ (m : List (Int × List Bool)) (t : Int),
    (t ∈ (rows.foldl
        (fun m row => addReview m (normTs row.1) (passedOf row.2)) m).map
          Prod.fst)
      ↔ t ∈ m.map Prod.fst ∨ t ∈ rows.map (fun r => normTs r.1) := by
  induction rows with
  | nil => simp
  | cons r rest ih =>
    intro m t
    simp only [List.foldl_cons, List.map_cons, List.mem_cons]
    rw [ih, addReview_keys_mem]
    tauto

/-- The grouping loop keeps keys pairwise distinct. -/
theorem reviewsLoop_keys_nodup (rows : List (Int × Int)) :
    ∀ (m : List (Int × List Bool)), (m.map Prod.fst).Nodup →
    ((rows.foldl
        (fun m row => addReview m (normTs row.1) (passedOf row.2)) m).map
          Prod.fst).Nodup := by
  induction rows with
  | nil => intro m h; exact h
  | cons r rest ih =>
    intro m h
    exact ih _ (addReview_keys_nodup m _ _ h)

/-- Sorted insertion permutes cons. -/
theorem insertByKey_perm (x : Int × List Bool) (l : List (Int × List Bool)) :
    (insertByKey x l).Perm (x :: l) := by
  induction l with
  | nil => exact List.Perm.refl _
  | cons y ys ih =>
    simp only [insertByKey]
    by_cases h : x.1 ≤ y.1
    · simp only [if_pos h]
      exact List.Perm.refl _
    · simp only [if_neg h]
      exact (List.Perm.cons y ih).trans (List.Perm.swap x y ys)

/-- sortByKey permutes its input. -/
theorem sortByKey_perm (l : List (Int × List Bool)) :
    (sortByKey l).Perm l := by
  induction l with
  | nil => exact List.Perm.refl _
  | cons x xs ih => exact (insertByKey_perm x (sortByKey xs)).trans (ih.cons x)

/-- Sorted insertion preserves key-sortedness. -/
theorem insertByKey_pairwise (x : Int × List Bool)
    (l : List (Int × List Bool))
    (h : l.Pairwise (fun a b => a.1 ≤ b.1)) :
    (insertByKey x l).Pairwise (fun a b => a.1 ≤ b.1) := by
  induction l with
  | nil => simp [insertByKey]
  | cons y ys ih =>
    obtain ⟨hy, hys⟩ := List.pairwise_cons.mp h
    by_cases hle : x.1 ≤ y.1
    · simp only [insertByKey, if_pos hle]
      refine List.pairwise_cons.mpr ⟨?_, h⟩
      intro b hb
      rcases List.mem_cons.mp hb with rfl | hbm
      · exact hle
      · exact hle.trans (hy b hbm)
    · simp only [insertByKey, if_neg hle]
      refine List.pairwise_cons.mpr ⟨?_, ih hys⟩
      intro b hb
      rcases List.mem_cons.mp ((insertByKey_perm x ys).mem_iff.mp hb) with
        rfl | hbm
      · exact le_of_not_le hle
      · exact hy b hbm

/-- sortByKey sorts by key. -/
theorem sortByKey_pairwise (l : List (Int × List Bool)) :
    (sortByKey l).Pairwise (fun a b => a.1 ≤ b.1) := by
  induction l with
  | nil => simp [sortByKey]
  | cons x xs ih => exact insertByKey_pairwise x _ ih

/-! ## Lemmas about the emulation fold -/

/-- Once an anchor exists, every remaining session overwrites last_review,
so the fold ends at the time of the last session (or at the anchor when no
session remains). -/
theorem emulateLoop_some_snd (log : List (Int × List Bool)) :
    ∀ (current : Model) (lr : Int) (d : List Bool),
    (emulateLoop current (some lr) log).2 = some ((log.getLastD (lr, d)).1) := by
  induction log with
  | nil => intro current lr d; rfl
  | cons s rest ih =>
    intro current lr d
    obtain ⟨t, tr⟩ := s
    simp only [emulateLoop, List.getLastD_cons]
    exact ih _ t tr

/-- Before an anchor exists, a session with no passing trial is skipped
without touching the model or last_review. -/
theorem emulateLoop_none_no_pass (log : List (Int × List Bool)) :
    ∀ (current : Model),
    (∀ s ∈ log, s.2.any (fun b => b) = false) →
    emulateLoop current none log = (current, none) := by
  induction log with
  | nil => intro current _; rfl
  | cons s rest ih =>
    intro current h
    obtain ⟨t, tr⟩ := s
    have ht : tr.any (fun b => b) = false := h (t, tr) (by simp)
    simp only [emulateLoop, ht, Bool.false_eq_true, if_false]
    exact ih current (fun s hs => h s (List.mem_cons_of_mem _ hs))

/-- When some session contains a pass, the fold's final last_review is the
time of the last session of the list. -/
theorem emulateLoop_none_snd (log : List (Int × List Bool)) :
    ∀ (current : Model),
    (∃ s ∈ log, s.2.any (fun b => b) = true) →
    (emulateLoop current none log).2 = some ((log.getLastD (0, [])).1) := by
  induction log with
  | nil => intro current h; simp at h
  | cons s rest ih =>
    intro current h
    obtain ⟨t, tr⟩ := s
    by_cases ht : tr.any (fun b => b) = true
    · simp only [emulateLoop, ht, if_true, List.getLastD_cons]
      exact emulateLoop_some_snd rest current t tr
    · have hrest : ∃ s ∈ rest, s.2.any (fun b => b) = true := by
        obtain ⟨s, hs, hpass⟩ := h
        rcases List.mem_cons.mp hs with heq | hmem
        · subst heq; exact absurd hpass ht
        · exact ⟨s, hmem, hpass⟩
      have hne : rest ≠ [] := by
        obtain ⟨s, hs, _⟩ := hrest
        exact List.ne_nil_of_mem hs
      have ht2 : tr.any (fun b => b) = false := by simpa using ht
      simp only [emulateLoop, ht2, Bool.false_eq_true, if_false]
      rw [ih current hrest, List.getLastD_cons,
        List.getLastD_eq_getLast?, List.getLastD_eq_getLast?]
      obtain ⟨x, hx⟩ := Option.isSome_iff_exists.mp
        (List.getLast?_isSome.mpr hne)
      simp [hx]

/-- Bounds on every update call issued after the anchor: elapsed is strictly
positive along a strictly ascending chain, total is the (positive) trial
count, successes is a countP of the trial list. -/
theorem emulateLoop_some_calls_bounds (log : List (Int × List Bool)) :
    ∀ (current : Model) (p : Int × List Bool),
    List.Chain (fun a b => a.1 < b.1) p log →
    (∀ s ∈ log, s.2 ≠ []) →
    ∀ c ∈ (emulateLoop current (some p.1) log).1.calls,
      c ∈ current.calls ∨ (0 < c.2.2 ∧ 1 ≤ c.2.1 ∧ c.1 ≤ c.2.1) := by
  induction log with
  | nil => intro current p _ _ c hc; exact Or.inl hc
  | cons s rest ih =>
    intro current p hchain hne c hc
    obtain ⟨t, tr⟩ := s
    obtain ⟨hlt, hchain2⟩ := List.chain_cons.mp hchain
    simp only [emulateLoop] at hc
    have step := ih
      (Model.updateRecall current (tr.countP (fun b => b))
        tr.length (t - p.1)) (t, tr) hchain2
      (fun s hs => hne s (List.mem_cons_of_mem _ hs)) c hc
    rcases step with hmem | hgood
    · simp only [Model.calls, List.mem_append, List.mem_singleton] at hmem
      rcases hmem with h1 | h2
      · exact Or.inl h1
      · subst h2
        refine Or.inr ⟨Int.sub_pos.mpr hlt, ?_, List.countP_le_length _⟩
        exact List.length_pos.mpr (hne (t, tr) (by simp))
    · exact Or.inr hgood


/-- After the anchor, the fold issues exactly one update per session. -/
theorem emulateLoop_some_calls_length (log : List (Int × List Bool)) :
    ∀ (current : Model) (lr : Int),
    (emulateLoop current (some lr) log).1.calls.length
      = current.calls.length + log.length := by
  induction log with
  | nil => intro current lr; simp [emulateLoop]
  | cons s rest ih =>
    intro current lr
    obtain ⟨t, tr⟩ := s
    simp only [emulateLoop, List.length_cons]
    rw [ih]
    simp [Model.calls]
    omega

/-- Starting without an anchor, the fold issues exactly one update per
session strictly after the anchor, and none at all when no session ever
contains a pass. -/
theorem emulateLoop_none_calls_length (log : List (Int × List Bool)) :
    ∀ (current : Model),
    (emulateLoop current none log).1.calls.length
      = current.calls.length + (afterAnchor log).length := by
  induction log with
  | nil => intro current; simp [emulateLoop, afterAnchor]
  | cons s rest ih =>
    intro current
    obtain ⟨t, tr⟩ := s
    by_cases ht : tr.any (fun b => b) = true
    · simp only [emulateLoop, afterAnchor, ht, if_true]
      exact emulateLoop_some_calls_length rest current t
    · have ht2 : tr.any (fun b => b) = false := by simpa using ht
      simp only [emulateLoop, afterAnchor, ht2, Bool.false_eq_true, if_false]
      exact ih current

/-- Pre-anchor traversal along a strictly ascending list preserves the call
bounds: either a call was already in the starting model (which emulate seeds
with the prior, whose trace is empty) or it satisfies the update
precondition. -/
theorem emulateLoop_none_calls_bounds (log : List (Int × List Bool)) :
    ∀ (current : Model),
    log.Chain' (fun a b => a.1 < b.1) →
    (∀ s ∈ log, s.2 ≠ []) →
    ∀ c ∈ (emulateLoop current none log).1.calls,
      c ∈ current.calls ∨ (0 < c.2.2 ∧ 1 ≤ c.2.1 ∧ c.1 ≤ c.2.1) := by
  induction log with
  | nil => intro current _ _ c hc; exact Or.inl hc
  | cons s rest ih =>
    intro current hchain hne c hc
    obtain ⟨t, tr⟩ := s
    by_cases ht : tr.any (fun b => b) = true
    · simp only [emulateLoop, ht, if_true] at hc
      exact emulateLoop_some_calls_bounds rest current (t, tr) hchain
        (fun s hs => hne s (List.mem_cons_of_mem _ hs)) c hc
    · have ht2 : tr.any (fun b => b) = false := by simpa using ht
      simp only [emulateLoop, ht2, Bool.false_eq_true, if_false] at hc
      exact ih current ((List.chain'_cons'.mp hchain).2)
        (fun s hs => hne s (List.mem_cons_of_mem _ hs)) c hc

/-- C9: recall_at and recall_when are idempotent and non-mutating: calling
either twice on the same emulation result with the same arguments yields
identical values, and the post-state of the method (second component) is the
unchanged input card. -/
theorem recall_queries_idempotent_pure (c : EbisuCard) (now : Int)
    (tnow : Option Int) (p : Rat) :
    recall_at c now tnow = recall_at c now tnow
    ∧ (recall_at c now tnow).2 = c
    ∧ recall_when c p = recall_when c p
    ∧ (recall_when c p).2 = c :=
  ⟨rfl, rfl, rfl, rfl⟩

/-- C1: whenever some aggregated session contains a pass, emulate returns a
populated result whose last_review is the session_time of the last session
of the list; and for a single-session list (the anchor), the result's model
is exactly the prior ebisu.defaultModel(10 * 60) — no update was performed. -/
theorem emulate_last_review_and_prior (cid : Int)
    (log : List (Int × List Bool))
    (h : ∃ s ∈ log, s.2.any (fun b => b) = true) :
    (∃ c, emulate cid log = some c
        ∧ c.last_review = (log.getLastD (0, [])).1
        ∧ c.card_id = cid ∧ c.review_log = log)
    ∧ (∀ t tr, log = [(t, tr)] →
        emulate cid log
          = some ⟨cid, log, Model.defaultModel (10 * 60), t⟩) := by
  constructor
  · have hsnd := emulateLoop_none_snd log (Model.defaultModel (10 * 60)) h
    refine ⟨⟨cid, log,
      (emulateLoop (Model.defaultModel (10 * 60)) none log).1,
      (log.getLastD (0, [])).1⟩, ?_, rfl, rfl, rfl⟩
    simp only [emulate, hsnd]
  · intro t tr heq
    subst heq
    obtain ⟨s, hs, hpass⟩ := h
    have hst : s = (t, tr) := by simpa using hs
    subst hst
    simp only [emulate, emulateLoop, hpass, if_true]

/-- C1 witness at the concrete single-session log [(50, [pass])]. -/
theorem emulate_last_review_and_prior_witness :
    emulate 7 [(50, [true])]
      = some ⟨7, [(50, [true])], Model.defaultModel (10 * 60), 50⟩ :=
  (emulate_last_review_and_prior 7 [(50, [true])]
    ⟨(50, [true]), by decide, by decide⟩).2 50 [true] rfl

/-- C2: when no aggregated session contains a passing trial, emulate returns
the ordinary value None, which is distinct from every populated result. -/
theorem emulate_no_pass_returns_none (cid : Int)
    (log : List (Int × List Bool))
    (h : ∀ s ∈ log, s.2.any (fun b => b) = false) :
    emulate cid log = none
    ∧ ∀ c : EbisuCard, emulate cid log ≠ some c := by
  have hloop := emulateLoop_none_no_pass log (Model.defaultModel (10 * 60)) h
  have hnone : emulate cid log = none := by simp only [emulate, hloop]
  exact ⟨hnone, fun c hc => by rw [hnone] at hc; exact Option.noConfusion hc⟩

/-- C2 witness: a card whose two sessions are all failures emulates to
None. -/
theorem emulate_no_pass_returns_none_witness :
    emulate 3 [(5, [false]), (9, [false, false])] = none :=
  (emulate_no_pass_returns_none 3 [(5, [false]), (9, [false, false])]
    (by decide)).1

/-- C3: on a strictly ascending session list with no empty trial multiset,
every ebisu.updateRecall call recorded in the final model has strictly
positive elapsed time, total ≥ 1, and successes ≤ total; and the number of
update calls equals the number of sessions strictly after the anchor — in
particular no update is issued before the anchor exists. -/
theorem emulate_update_calls_safe (log : List (Int × List Bool))
    (hsorted : log.Chain' (fun a b => a.1 < b.1))
    (hne : ∀ s ∈ log, s.2 ≠ []) :
    (∀ c ∈ (emulateLoop (Model.defaultModel (10 * 60)) none log).1.calls,
        0 < c.2.2 ∧ 1 ≤ c.2.1 ∧ c.1 ≤ c.2.1)
    ∧ (emulateLoop (Model.defaultModel (10 * 60)) none log).1.calls.length
      = (afterAnchor log).length := by
  constructor
  · intro c hc
    rcases emulateLoop_none_calls_bounds log (Model.defaultModel (10 * 60))
        hsorted hne c hc with hmem | hgood
    · simp [Model.calls] at hmem
    · exact hgood
  · simpa [Model.calls] using
      emulateLoop_none_calls_length log (Model.defaultModel (10 * 60))

/-- C3 witness at the concrete two-session ascending log. -/
theorem emulate_update_calls_safe_witness :
    (emulateLoop (Model.defaultModel (10 * 60)) none
        [(50, [true]), (60, [false, true])]).1.calls.length
      = (afterAnchor [(50, [true]), (60, [false, true])]).length :=
  (emulate_update_calls_safe [(50, [true]), (60, [false, true])]
    (by norm_num [List.chain'_cons]) (by decide)).2

/-- C4 counterexample: on the claim's raw input [(100, pass), (100, fail),
(100, pass)] the aggregator normalizes 100 // 1000 = 0, so the single merged
session sits at time 0, not at time 100 (buttons: 3 = pass, 1 = fail). -/
theorem get_review_log_time_100_counterexample :
    get_review_log [(100, 3), (100, 1), (100, 3)] = [(0, [true, false, true])]
    ∧ (get_review_log [(100, 3), (100, 1), (100, 3)]).map Prod.fst ≠ [100] := by
  decide

/-- C4 amended: same-timestamp raw events are merged into one session whose
counts are summed — for raw input [(100000, pass), (100000, fail),
(100000, pass)] (timestamps in ms) the aggregator yields exactly the session
at normalized time 100 with total = 3 trials of which successes = 2. -/
theorem get_review_log_merges_same_timestamp :
    get_review_log [(100000, 3), (100000, 1), (100000, 3)]
      = [(100, [true, false, true])]
    ∧ ([true, false, true] : List Bool).length = 3
    ∧ ([true, false, true] : List Bool).countP (fun b => b) = 2 := by
  decide

/-- C8 counterexample: fuzzy_delta(3700, raw=True) is "about 61 minutes",
because the hour unit is skipped when abs(dt) < 2 * 3600; it does not start
with "about 1 hour". -/
theorem fuzzy_delta_3700_counterexample :
    fuzzy_delta 3700 true = "about 61 minutes"
    ∧ (fuzzy_delta 3700 true).data.take 12 ≠ ("about 1 hour").data := by
  decide

/-- C8 amended: fuzzy_delta(0) is "now" regardless of the raw flag;
fuzzy_delta(3700, raw=True) is "about 61 minutes" (minute scale, by the
2x-interval selection rule); fuzzy_delta(-90000) is "about 25 hours ago" —
it ends with "ago" but reports an hour-scale unit, not a day-scale one,
since 90000 < 2 * 86400. -/
theorem fuzzy_delta_examples :
    fuzzy_delta 0 false = "now"
    ∧ fuzzy_delta 0 true = "now"
    ∧ fuzzy_delta 3700 true = "about 61 minutes"
    ∧ fuzzy_delta (-90000) false = "about 25 hours ago" := by
  decide

/-- C5: for every set of raw rows, get_review_log normalizes
ms → s (1600000000000 becomes 1600000000), returns sessions sorted strictly
ascending by session_time (so each distinct normalized timestamp appears as
the key of exactly one session), and its keys are exactly the normalized
timestamps of the input rows. -/
theorem get_review_log_invariants (rows : List (Int × Int)) :
    ((get_review_log rows).map Prod.fst).Pairwise (· < ·)
    ∧ (∀ t, t ∈ (get_review_log rows).map Prod.fst ↔
        t ∈ rows.map (fun r => normTs r.1))
    ∧ normTs 1600000000000 = 1600000000 := by
  have hperm : (get_review_log rows).Perm (buildReviews rows) :=
    sortByKey_perm _
  have hkeysperm :
      ((get_review_log rows).map Prod.fst).Perm
        ((buildReviews rows).map Prod.fst) := hperm.map Prod.fst
  have hnodupB : ((buildReviews rows).map Prod.fst).Nodup :=
    reviewsLoop_keys_nodup rows [] (by simp)
  have hnodup : ((get_review_log rows).map Prod.fst).Nodup :=
    hkeysperm.nodup_iff.mpr hnodupB
  refine ⟨?_, ?_, by decide⟩
  · have hle : ((get_review_log rows).map Prod.fst).Pairwise (· ≤ ·) :=
      List.pairwise_map.mpr (sortByKey_pairwise (buildReviews rows))
    exact (hle.and hnodup).imp (fun hab => lt_of_le_of_ne hab.1 hab.2)
  · intro t
    rw [hkeysperm.mem_iff]
    have hmem := reviewsLoop_keys_mem rows [] t
    simpa [buildReviews] using hmem

/-- C6: with tnow not supplied, recall_at passes the absolute current epoch
time to ebisu.predictRecall (exact mode), not now − last_review: for a card
last reviewed at 1600000000 queried at 1600000600 the code predicts at
t = 1600000600 while the spec's default elapsed time is 600, and those two
predictions are distinct engine calls. -/
theorem recall_at_default_uses_absolute_now :
    (recall_at ⟨1, [(1600000000, [true])], Model.defaultModel 600, 1600000000⟩
        1600000600 none).1
      = EbisuReal.predictRecall (Model.defaultModel 600) 1600000600 true
    ∧ (1600000600 : Int) - 1600000000 = 600
    ∧ EbisuReal.predictRecall (Model.defaultModel 600) 1600000600 true
      ≠ EbisuReal.predictRecall (Model.defaultModel 600) 600 true := by
  decide

/-- C7: when no card yields an emulation result, main's totals are
(0 cards, 0 reviews) and the summary average total_reviews / total_cards is
a division by zero (embedded as none), so the run does not complete with a
defined average. -/
theorem summary_zero_cards_divides_by_zero :
    tally [] = (0, 0) ∧ summary_avg (tally []).2 (tally []).1 = none := by
  decide

/-- C10: total_reviews sums len(review_log) − 1 over exactly the cards whose
emulation returned a result; a card whose three raw reviews share one
timestamp has a one-session log and contributes 1 card but 0 reviews. -/
theorem total_reviews_counts_aggregated_sessions
    (cards : List (Int × List (Int × Int))) :
    (tally cards).2 =
      ((cards.filter
          (fun p => (emulate p.1 (get_review_log p.2)).isSome)).map
        (fun p => ((get_review_log p.2).length : Int) - 1)).sum
    ∧ tally [(1, [(100000, 3), (100000, 1), (100000, 3)])] = (1, 0) := by
  refine ⟨?_, by decide⟩
  induction cards with
  | nil => rfl
  | cons c rest ih =>
    obtain ⟨cid, rows⟩ := c
    simp only [tally, List.filter_cons]
    cases h : emulate cid (get_review_log rows) with
    | none => simpa [h] using ih
    | some card =>
      simp only [h, Option.isSome_some, if_pos, List.map_cons, List.sum_cons]
      omega

end EbisuBench
